import Mathlib

/-!
# Verification of the tachyfont CFF DICT decoder

Shallow embedding of `tachyfont.CffDict` (CFF DICT parsing) from the
incremental-fonts repository.  The embedding follows the JavaScript source
line by line:

* `BinaryFontEditor` models the byte cursor (`DataView` plus offset); its
  `getUint8` reads the next unsigned byte (always in `[0,256)`) and advances
  the offset, failing with `outOfRange` past the end of the region.
* `parseNibbles_` models `tachyfont.CffDict.parseNibbles_`.
* `readOperandsOperator_` models `tachyfont.CffDict.readOperandsOperator_`;
  its per-byte body is factored out as `scanByte` (the JS `operand =
  isUndefined; ...; if (operand !== isUndefined)` pattern becomes the
  `ScanStep` sum).
* `CffDict.init_go` / `loadDict` model `init_` and `loadDict`, including the
  debug logging driven by the optional operator-name map; the decode loop
  `while (binEd.offset < byteLength)` is realised with fuel
  `dataView.length + 1`, which is sufficient because every successful scan
  consumes at least one byte (`readOperandsOperator_offset_lt` below).
* JavaScript 32-bit bitwise arithmetic (`<<`, `|`) is embedded by `jsShl`
  and `jsOr` with explicit reduction modulo `2^32` and signed reinterpretation.
-/

deriving instance DecidableEq for Except

namespace tachyfont

/-- Errors of the decoder: cursor overrun, the reserved-operand-byte throw in
`readOperandsOperator_`, and the invalid-key throw in `CffDict.prototype.get`. -/
inductive DictError where
  | outOfRange : DictError
  | reservedOperandByte : Nat → DictError
  | invalidKeyLookup : String → String → DictError
deriving DecidableEq

/-- The byte cursor: the DICT's `DataView` bytes plus the current offset. -/
structure BinaryFontEditor where
  data : List Nat
  offset : Nat
deriving DecidableEq

/-- Model of `binEd.getUint8()`: read the next unsigned byte and advance the offset.
A `DataView` byte is always in `[0,256)`, hence the `% 256` on the stored
value; reading past the region length fails with `outOfRange`. -/
def BinaryFontEditor.getUint8 (binEd : BinaryFontEditor) :
    Except DictError (Nat × BinaryFontEditor) :=
  match binEd.data[binEd.offset]? with
  | some b => .ok (b % 256, ⟨binEd.data, binEd.offset + 1⟩)
  | none => .error .outOfRange

/-- An operand: an integer (the four integer encodings) or the textual real
literal produced by `parseNibbles_`. -/
inductive Operand where
  | int : Int → Operand
  | real : String → Operand
deriving DecidableEq

/-- JavaScript `ToUint32`: the value reduced into `[0, 2^32)`. -/
def jsUint32 (a : Int) : Nat := (a % (2 ^ 32 : Int)).toNat

/-- Reinterpret a `Nat` as a signed 32-bit JavaScript number. -/
def jsAsInt32 (n : Nat) : Int :=
  if n % 2 ^ 32 < 2 ^ 31 then ((n % 2 ^ 32 : Nat) : Int)
  else ((n % 2 ^ 32 : Nat) : Int) - 2 ^ 32

/-- JavaScript `a << s` (shift count masked to 5 bits, int32 result). -/
def jsShl (a : Int) (s : Nat) : Int := jsAsInt32 (jsUint32 a * 2 ^ (s % 32))

/-- JavaScript `a | b` (bitwise or on the 32-bit representations, int32
result). -/
def jsOr (a b : Int) : Int := jsAsInt32 (jsUint32 a ||| jsUint32 b)

/-- The character appended for one nibble in `parseNibbles_`: digits `0`-`9`,
`0xa` → `.`, `0xb` → `E`, `0xc` → `-E`, `0xe` → `-`; `0xd` appends nothing
(`0xf` is handled by the caller before this map is consulted). -/
def nibbleChar (nibble : Nat) : String :=
  if nibble ≤ 9 then toString nibble
  else if nibble = 0xa then "."
  else if nibble = 0xb then "E"
  else if nibble = 0xc then "-E"
  else if nibble = 0xe then "-"
  else ""

/-- Loop body of `tachyfont.CffDict.parseNibbles_`: `while (operandsCnt++ <= 48)`
runs at most 49 iterations, each reading one byte and examining its high
nibble then its low nibble, returning the accumulated string as soon as a
nibble equals `0xf`. -/
def parseNibblesGo (binEd : BinaryFontEditor) (operand : String) :
    Nat → Except DictError (String × BinaryFontEditor)
  | 0 => .ok (operand, binEd)
  | fuel + 1 =>
    match binEd.getUint8 with
    | .error e => .error e
    | .ok (aByte, binEd1) =>
      if aByte >>> 4 = 0xf then .ok (operand, binEd1)
      else if aByte &&& 0xf = 0xf then .ok (operand ++ nibbleChar (aByte >>> 4), binEd1)
      else parseNibblesGo binEd1 (operand ++ nibbleChar (aByte >>> 4) ++ nibbleChar (aByte &&& 0xf)) fuel

/-- Model of `tachyfont.CffDict.parseNibbles_`. -/
def parseNibbles_ (binEd : BinaryFontEditor) : Except DictError (String × BinaryFontEditor) :=
  parseNibblesGo binEd "" 49

/-- The reserved-operand test of `readOperandsOperator_` line 209:
`(b0 >= 22 && b0 <= 27) || b0 == 31 || b0 == 255`. -/
def isReserved (b0 : Nat) : Bool :=
  (22 ≤ b0 && b0 ≤ 27) || b0 == 31 || b0 == 255

/-- Result of one iteration of the `readOperandsOperator_` loop body: either
an operand was decoded (`operand !== isUndefined`) or the byte was classified
as an operator and the loop breaks. -/
inductive ScanStep where
  | operand : Operand → BinaryFontEditor → ScanStep
  | operator : String → BinaryFontEditor → ScanStep
deriving DecidableEq

/-- The cursor state carried by a scan-step result. -/
def ScanStep.cursor : ScanStep → BinaryFontEditor
  | .operand _ c => c
  | .operator _ c => c

/-- One iteration of the loop body of `tachyfont.CffDict.readOperandsOperator_`:
read `b0`, throw on a reserved byte, decode an operand per the CFF operand
encoding table, or fall through to operator interpretation (with the
`b0 == 12` two-byte escape). -/
def scanByte (binEd0 : BinaryFontEditor) : Except DictError ScanStep :=
  match binEd0.getUint8 with
  | .error e => .error e
  | .ok (b0, binEd) =>
    if isReserved b0 then .error (.reservedOperandByte b0)
    else if 32 ≤ b0 ∧ b0 ≤ 246 then
      .ok (.operand (.int ((b0 : Int) - 139)) binEd)
    else if 247 ≤ b0 ∧ b0 ≤ 250 then
      match binEd.getUint8 with
      | .error e => .error e
      | .ok (b1, binEd) =>
        .ok (.operand (.int (((b0 : Int) - 247) * 256 + (b1 : Int) + 108)) binEd)
    else if 251 ≤ b0 ∧ b0 ≤ 254 then
      match binEd.getUint8 with
      | .error e => .error e
      | .ok (b1, binEd) =>
        .ok (.operand (.int (-((b0 : Int) - 251) * 256 - (b1 : Int) - 108)) binEd)
    else if b0 = 28 then
      match binEd.getUint8 with
      | .error e => .error e
      | .ok (b1, binEd) =>
        match binEd.getUint8 with
        | .error e => .error e
        | .ok (b2, binEd) =>
          .ok (.operand (.int (jsOr (jsShl (b1 : Int) 8) (b2 : Int))) binEd)
    else if b0 = 29 then
      match binEd.getUint8 with
      | .error e => .error e
      | .ok (b1, binEd) =>
        match binEd.getUint8 with
        | .error e => .error e
        | .ok (b2, binEd) =>
          match binEd.getUint8 with
          | .error e => .error e
          | .ok (b3, binEd) =>
            match binEd.getUint8 with
            | .error e => .error e
            | .ok (b4, binEd) =>
              .ok (.operand
                (.int (jsOr (jsOr (jsOr (jsShl (b1 : Int) 24) (jsShl (b2 : Int) 16))
                  (jsShl (b3 : Int) 8)) (b4 : Int))) binEd)
    else if b0 = 30 then
      match parseNibbles_ binEd with
      | .error e => .error e
      | .ok (s, binEd) => .ok (.operand (.real s) binEd)
    else if b0 = 12 then
      match binEd.getUint8 with
      | .error e => .error e
      | .ok (op, binEd) => .ok (.operator ("12 " ++ toString op) binEd)
    else
      .ok (.operator (toString b0) binEd)

/-- The key/value pair returned by `readOperandsOperator_`
(`tachyfont.CffDict.keyValuePair_`). -/
structure KeyValuePair where
  key : String
  value : List Operand
deriving DecidableEq

/-- The loop of `readOperandsOperator_`: `while (operands.length <= 48)`.
The fuel is `49 - operands.length`; when it reaches `0` the loop condition
fails and the function returns the still-empty operator string with the
accumulated operands, without reading any further byte. -/
def readOperandsOperatorGo (binEd : BinaryFontEditor) (operands : List Operand) :
    Nat → Except DictError (KeyValuePair × BinaryFontEditor)
  | 0 => .ok (⟨"", operands⟩, binEd)
  | fuel + 1 =>
    match scanByte binEd with
    | .error e => .error e
    | .ok (.operand v binEd1) => readOperandsOperatorGo binEd1 (operands ++ [v]) fuel
    | .ok (.operator op binEd1) => .ok (⟨op, operands⟩, binEd1)

/-- Model of `tachyfont.CffDict.readOperandsOperator_`. -/
def readOperandsOperator_ (binEd : BinaryFontEditor) :
    Except DictError (KeyValuePair × BinaryFontEditor) :=
  readOperandsOperatorGo binEd [] 49

/-- Own-property lookup in a JavaScript object modelled as an association
list without duplicate keys (`obj.hasOwnProperty(key)` / own `obj[key]`).
This deliberately excludes the prototype chain; `CffDict.get` below adds the
`Object.prototype` members that the JS `in` operator also finds. -/
def objGet {α : Type} : List (String × α) → String → Option α
  | [], _ => none
  | p :: rest, k => if p.1 == k then some p.2 else objGet rest k

/-- JavaScript object assignment `obj[key] = v` as an own-data-property
write: replace the value of an existing key in place, otherwise append the
new binding.  The decode loop only ever assigns decode-produced keys (`""`,
decimal strings of 0..21, `"12 "` plus a decimal byte), none of which
collides with an `Object.prototype` member name, so the special behaviour of
assigning `__proto__` never arises there. -/
def objSet {α : Type} : List (String × α) → String → α → List (String × α)
  | [], k, v => [(k, v)]
  | p :: rest, k, v => if p.1 == k then (k, v) :: rest else p :: objSet rest k v

/-- The property names of `Object.prototype`: a JS `key in obj` test on a
plain object literal also finds these inherited members, and reading
`obj[key]` then yields the inherited value. -/
def objectPrototypeMembers : List String :=
  ["constructor", "hasOwnProperty", "isPrototypeOf", "propertyIsEnumerable",
   "toLocaleString", "toString", "valueOf", "__proto__", "__defineGetter__",
   "__defineSetter__", "__lookupGetter__", "__lookupSetter__"]

/-- Result of a successful `get`: either a decoded operand list (an own
property of `dict_`) or a member inherited from `Object.prototype`
(`toString`, `constructor`, ...).  Inherited members are host functions (or,
for `__proto__`, the prototype object), outside the operand domain, so they
are modelled abstractly by the key that reached them. -/
inductive GetResult where
  | operands : List Operand → GetResult
  | inherited : String → GetResult
deriving DecidableEq

/-- JavaScript `Array.prototype.toString` for an operand list (used only in
the debug log line of `init_`). -/
def operandToString : Operand → String
  | .int n => toString n
  | .real s => s

def operandsToString (l : List Operand) : String :=
  String.intercalate "," (l.map operandToString)

/-- The decoded DICT: its diagnostic name, the ordered key list `keys_`
(one entry per operator occurrence) and the operator→operands object `dict_`. -/
structure CffDict where
  name : String
  keys : List String
  dict : List (String × List Operand)
deriving DecidableEq

/-- The loop of `tachyfont.CffDict.prototype.init_`:
`while (binEd.offset < byteLength)` read one operands/operator group, emit a
debug log line (using `dictOperators_` for labelling when available), push
the key and assign `dict_[key] = value`.  Fuel-indexed; each iteration
consumes at least one byte, so fuel `byteLength + 1` never runs out. -/
def initGo (dictOperators : Option (List (String × String))) :
    BinaryFontEditor → List String → List (String × List Operand) → List String → Nat →
    Except DictError (List String × List (String × List Operand) × List String)
  | _, keys, dict, log, 0 => .ok (keys, dict, log)
  | binEd, keys, dict, log, fuel + 1 =>
    if binEd.offset < binEd.data.length then
      match readOperandsOperator_ binEd with
      | .error e => .error e
      | .ok (kv, binEd1) =>
        let line :=
          match dictOperators with
          | some ops =>
            match objGet ops kv.key with
            | some opName => "  " ++ operandsToString kv.value ++ " " ++ opName
            | none => "  " ++ operandsToString kv.value ++ " " ++ kv.key
          | none => "  " ++ operandsToString kv.value ++ " " ++ kv.key
        initGo dictOperators binEd1 (keys ++ [kv.key]) (objSet dict kv.key kv.value)
          (log ++ [line]) fuel
    else .ok (keys, dict, log)

/-- Model of `tachyfont.CffDict.loadDict`: build the `DataView` over
`(buffer, offset, length)` (failing at the cursor boundary if the region does
not fit), then run `init_`.  The optional operator-name map is the
`opt_dictOperators` parameter; the returned string list is the debug log. -/
def loadDict (name : String) (buffer : List Nat) (offset length : Nat)
    (dictOperators : Option (List (String × String))) :
    Except DictError (CffDict × List String) :=
  if offset + length ≤ buffer.length then
    match initGo dictOperators ⟨(buffer.drop offset).take length, 0⟩ [] [] []
        (((buffer.drop offset).take length).length + 1) with
    | .error e => .error e
    | .ok (keys, dict, log) => .ok (⟨name, keys, dict⟩, log)
  else .error .outOfRange

/-- Model of `CffDict.prototype.getName`. -/
def CffDict.getName (d : CffDict) : String := d.name

/-- Model of `CffDict.prototype.getKeys`. -/
def CffDict.getKeys (d : CffDict) : List String := d.keys

/-- Model of `CffDict.prototype.get`: return `dict_[key]` when
`key in dict_`, otherwise throw the invalid-key `RangeError`.  The JS `in`
operator consults the prototype chain, so a key that is no own property of
`dict_` but names an `Object.prototype` member passes the test and the read
then yields that inherited member instead of throwing. -/
def CffDict.get (d : CffDict) (key : String) : Except DictError GetResult :=
  match objGet d.dict key with
  | some v => .ok (.operands v)
  | none =>
    if key ∈ objectPrototypeMembers then .ok (.inherited key)
    else .error (.invalidKeyLookup d.name key)

/-- Specification-side occurrence trace of a decode: the list of
(operator, operands) groups in the order produced, used to state the
last-occurrence-wins property of the finished Dict. -/
def decodeTraceGo : BinaryFontEditor → Nat → Except DictError (List (String × List Operand))
  | _, 0 => .ok []
  | binEd, fuel + 1 =>
    if binEd.offset < binEd.data.length then
      match readOperandsOperator_ binEd with
      | .error e => .error e
      | .ok (kv, binEd1) =>
        match decodeTraceGo binEd1 fuel with
        | .error e => .error e
        | .ok t => .ok ((kv.key, kv.value) :: t)
    else .ok []

/-- Specification-side: the occurrence trace of `loadDict` over the same
byte region. -/
def loadTrace (buffer : List Nat) (offset length : Nat) :
    Except DictError (List (String × List Operand)) :=
  if offset + length ≤ buffer.length then
    decodeTraceGo ⟨(buffer.drop offset).take length, 0⟩
      (((buffer.drop offset).take length).length + 1)
  else .error .outOfRange

end tachyfont
namespace tachyfont

/-- The reader `getUint8` always yields a byte value below 256. -/
theorem getUint8_lt {binEd c : BinaryFontEditor} {b : Nat}
    (h : binEd.getUint8 = .ok (b, c)) : b < 256 := by
  unfold BinaryFontEditor.getUint8 at h
  cases hb : binEd.data[binEd.offset]? with
  | none => rw [hb] at h; exact absurd h (by simp)
  | some x =>
    rw [hb] at h
    cases h
    exact Nat.mod_lt _ (by omega)

/-- The reader `getUint8` advances the offset by exactly one and leaves the data alone. -/
theorem getUint8_state {binEd c : BinaryFontEditor} {b : Nat}
    (h : binEd.getUint8 = .ok (b, c)) : c = ⟨binEd.data, binEd.offset + 1⟩ := by
  unfold BinaryFontEditor.getUint8 at h
  cases hb : binEd.data[binEd.offset]? with
  | none => rw [hb] at h; exact absurd h (by simp)
  | some x => rw [hb] at h; cases h; rfl

theorem jsUint32_natCast {n : Nat} (h : n < 2 ^ 32) : jsUint32 (n : Int) = n := by
  unfold jsUint32; omega

theorem jsAsInt32_lt {n : Nat} (h : n < 2 ^ 31) : jsAsInt32 n = (n : Int) := by
  unfold jsAsInt32
  split <;> omega

theorem jsUint32_jsAsInt32 (n : Nat) : jsUint32 (jsAsInt32 n) = n % 2 ^ 32 := by
  unfold jsUint32 jsAsInt32
  split <;> omega

theorem jsShl_byte {b : Nat} (hb : b < 2 ^ 32) {s : Nat} (hs : s < 32) :
    jsShl (b : Int) s = jsAsInt32 (b * 2 ^ s) := by
  unfold jsShl
  rw [jsUint32_natCast hb, Nat.mod_eq_of_lt hs]

theorem jsOr_asInt32 (m n : Nat) :
    jsOr (jsAsInt32 m) (jsAsInt32 n) = jsAsInt32 (m % 2 ^ 32 ||| n % 2 ^ 32) := by
  unfold jsOr
  rw [jsUint32_jsAsInt32, jsUint32_jsAsInt32]

end tachyfont
namespace tachyfont

/-- Shifting and or-ing bytes: `b1 << 8 | b2` is the plain unsigned combination. -/
theorem jsOr_shl8 {b1 b2 : Nat} (h1 : b1 < 256) (h2 : b2 < 256) :
    jsOr (jsShl (b1 : Int) 8) (b2 : Int) = ((2 ^ 8 * b1 + b2 : Nat) : Int) := by
  have e1 : jsShl (b1 : Int) 8 = jsAsInt32 (2 ^ 8 * b1) := by
    rw [jsShl_byte (by omega) (by omega)]; ring_nf
  have e2 : (b2 : Int) = jsAsInt32 b2 := (jsAsInt32_lt (by omega)).symm
  rw [e1, e2, jsOr_asInt32, Nat.mod_eq_of_lt (by omega), Nat.mod_eq_of_lt (by omega),
    ← Nat.mul_add_lt_is_or (by omega) b1, jsAsInt32_lt (by omega)]

/-- Shifting and or-ing four bytes: `b1<<24 | b2<<16 | b3<<8 | b4` is the signed reinterpretation of
the 32-bit big-endian combination. -/
theorem jsOr_chain4 {b1 b2 b3 b4 : Nat}
    (h1 : b1 < 256) (h2 : b2 < 256) (h3 : b3 < 256) (h4 : b4 < 256) :
    jsOr (jsOr (jsOr (jsShl (b1 : Int) 24) (jsShl (b2 : Int) 16)) (jsShl (b3 : Int) 8))
      (b4 : Int) =
    jsAsInt32 (2 ^ 24 * b1 + 2 ^ 16 * b2 + 2 ^ 8 * b3 + b4) := by
  have e1 : jsShl (b1 : Int) 24 = jsAsInt32 (2 ^ 24 * b1) := by
    rw [jsShl_byte (by omega) (by omega)]; ring_nf
  have e2 : jsShl (b2 : Int) 16 = jsAsInt32 (2 ^ 16 * b2) := by
    rw [jsShl_byte (by omega) (by omega)]; ring_nf
  have e3 : jsShl (b3 : Int) 8 = jsAsInt32 (2 ^ 8 * b3) := by
    rw [jsShl_byte (by omega) (by omega)]; ring_nf
  have e4 : (b4 : Int) = jsAsInt32 b4 := (jsAsInt32_lt (by omega)).symm
  have l1 : (2 ^ 24 * b1) % 2 ^ 32 ||| (2 ^ 16 * b2) % 2 ^ 32 =
      2 ^ 24 * b1 + 2 ^ 16 * b2 := by
    rw [Nat.mod_eq_of_lt (by omega), Nat.mod_eq_of_lt (by omega),
      ← Nat.mul_add_lt_is_or (by omega) b1]
  have l2 : (2 ^ 24 * b1 + 2 ^ 16 * b2) % 2 ^ 32 ||| (2 ^ 8 * b3) % 2 ^ 32 =
      2 ^ 24 * b1 + 2 ^ 16 * b2 + 2 ^ 8 * b3 := by
    rw [Nat.mod_eq_of_lt (by omega), Nat.mod_eq_of_lt (by omega)]
    have : 2 ^ 24 * b1 + 2 ^ 16 * b2 = 2 ^ 16 * (2 ^ 8 * b1 + b2) := by ring
    rw [this, ← Nat.mul_add_lt_is_or (by omega) (2 ^ 8 * b1 + b2)]
  have l3 : (2 ^ 24 * b1 + 2 ^ 16 * b2 + 2 ^ 8 * b3) % 2 ^ 32 ||| b4 % 2 ^ 32 =
      2 ^ 24 * b1 + 2 ^ 16 * b2 + 2 ^ 8 * b3 + b4 := by
    rw [Nat.mod_eq_of_lt (by omega), Nat.mod_eq_of_lt (by omega)]
    have : 2 ^ 24 * b1 + 2 ^ 16 * b2 + 2 ^ 8 * b3 =
        2 ^ 8 * (2 ^ 16 * b1 + 2 ^ 8 * b2 + b3) := by ring
    rw [this, ← Nat.mul_add_lt_is_or (by omega) (2 ^ 16 * b1 + 2 ^ 8 * b2 + b3)]
  rw [e1, e2, e3, e4, jsOr_asInt32, l1, jsOr_asInt32, l2, jsOr_asInt32, l3]

end tachyfont
namespace tachyfont

theorem getUint8_eq_ok_iff {binEd c : BinaryFontEditor} {b : Nat} :
    binEd.getUint8 = .ok (b, c) ↔
      (binEd.data[binEd.offset]?).map (· % 256) = some b ∧
        c = ⟨binEd.data, binEd.offset + 1⟩ := by
  unfold BinaryFontEditor.getUint8
  cases hb : binEd.data[binEd.offset]? <;> simp [hb, eq_comm, and_comm]

theorem scanByte_err0 {binEd : BinaryFontEditor} {e : DictError}
    (hg : binEd.getUint8 = .error e) : scanByte binEd = .error e := by
  unfold scanByte
  rw [hg]

theorem scanByte_reserved {binEd c : BinaryFontEditor} {b0 : Nat}
    (hg : binEd.getUint8 = .ok (b0, c)) (hres : isReserved b0 = true) :
    scanByte binEd = .error (.reservedOperandByte b0) := by
  unfold scanByte
  rw [hg]
  simp [hres]

theorem scanByte_small {binEd c : BinaryFontEditor} {b0 : Nat}
    (hg : binEd.getUint8 = .ok (b0, c)) (h1 : 32 ≤ b0) (h2 : b0 ≤ 246) :
    scanByte binEd = .ok (.operand (.int ((b0 : Int) - 139)) c) := by
  have hres : isReserved b0 = false := by simp [isReserved]; omega
  unfold scanByte
  rw [hg]
  simp [hres, h1, h2]

end tachyfont
namespace tachyfont

theorem scanByte_pos2 {binEd c1 c2 : BinaryFontEditor} {b0 b1 : Nat}
    (hg : binEd.getUint8 = .ok (b0, c1)) (h1 : 247 ≤ b0) (h2 : b0 ≤ 250)
    (hg1 : c1.getUint8 = .ok (b1, c2)) :
    scanByte binEd = .ok (.operand (.int (((b0 : Int) - 247) * 256 + (b1 : Int) + 108)) c2) := by
  have hres : isReserved b0 = false := by simp [isReserved]; omega
  have hn1 : ¬(32 ≤ b0 ∧ b0 ≤ 246) := by omega
  unfold scanByte
  rw [hg]
  simp [hres, hn1, h1, h2, hg1]

theorem scanByte_neg2 {binEd c1 c2 : BinaryFontEditor} {b0 b1 : Nat}
    (hg : binEd.getUint8 = .ok (b0, c1)) (h1 : 251 ≤ b0) (h2 : b0 ≤ 254)
    (hg1 : c1.getUint8 = .ok (b1, c2)) :
    scanByte binEd = .ok (.operand (.int (-((b0 : Int) - 251) * 256 - (b1 : Int) - 108)) c2) := by
  have hres : isReserved b0 = false := by simp [isReserved]; omega
  have hn1 : ¬(32 ≤ b0 ∧ b0 ≤ 246) := by omega
  have hn2 : ¬(247 ≤ b0 ∧ b0 ≤ 250) := by omega
  unfold scanByte
  rw [hg]
  simp [hres, hn1, hn2, h1, h2, hg1]

theorem scanByte_int3 {binEd c1 c2 c3 : BinaryFontEditor} {b1 b2 : Nat}
    (hg : binEd.getUint8 = .ok (28, c1))
    (hg1 : c1.getUint8 = .ok (b1, c2)) (hg2 : c2.getUint8 = .ok (b2, c3)) :
    scanByte binEd = .ok (.operand (.int (jsOr (jsShl (b1 : Int) 8) (b2 : Int))) c3) := by
  unfold scanByte
  rw [hg]
  simp [isReserved, hg1, hg2]

theorem scanByte_int5 {binEd c1 c2 c3 c4 c5 : BinaryFontEditor} {b1 b2 b3 b4 : Nat}
    (hg : binEd.getUint8 = .ok (29, c1))
    (hg1 : c1.getUint8 = .ok (b1, c2)) (hg2 : c2.getUint8 = .ok (b2, c3))
    (hg3 : c3.getUint8 = .ok (b3, c4)) (hg4 : c4.getUint8 = .ok (b4, c5)) :
    scanByte binEd = .ok (.operand
      (.int (jsOr (jsOr (jsOr (jsShl (b1 : Int) 24) (jsShl (b2 : Int) 16))
        (jsShl (b3 : Int) 8)) (b4 : Int))) c5) := by
  unfold scanByte
  rw [hg]
  simp [isReserved, hg1, hg2, hg3, hg4]

theorem scanByte_real {binEd c1 c2 : BinaryFontEditor} {s : String}
    (hg : binEd.getUint8 = .ok (30, c1)) (hnib : parseNibbles_ c1 = .ok (s, c2)) :
    scanByte binEd = .ok (.operand (.real s) c2) := by
  unfold scanByte
  rw [hg]
  simp [isReserved, hnib]

theorem scanByte_esc {binEd c1 c2 : BinaryFontEditor} {op : Nat}
    (hg : binEd.getUint8 = .ok (12, c1)) (hg1 : c1.getUint8 = .ok (op, c2)) :
    scanByte binEd = .ok (.operator ("12 " ++ toString op) c2) := by
  unfold scanByte
  rw [hg]
  simp [isReserved, hg1]

theorem scanByte_op {binEd c1 : BinaryFontEditor} {b0 : Nat}
    (hg : binEd.getUint8 = .ok (b0, c1)) (h1 : b0 ≤ 21) (h2 : b0 ≠ 12) :
    scanByte binEd = .ok (.operator (toString b0) c1) := by
  have hres : isReserved b0 = false := by simp [isReserved]; omega
  have hn1 : ¬(32 ≤ b0 ∧ b0 ≤ 246) := by omega
  have hn2 : ¬(247 ≤ b0 ∧ b0 ≤ 250) := by omega
  have hn3 : ¬(251 ≤ b0 ∧ b0 ≤ 254) := by omega
  have hn4 : b0 ≠ 28 := by omega
  have hn5 : b0 ≠ 29 := by omega
  have hn6 : b0 ≠ 30 := by omega
  unfold scanByte
  rw [hg]
  simp [hres, hn1, hn2, hn3, hn4, hn5, hn6, h2]

end tachyfont
namespace tachyfont

theorem parseNibblesGo_mono (fuel : Nat) :
    ∀ (binEd : BinaryFontEditor) (op : String) {s : String} {c : BinaryFontEditor},
    parseNibblesGo binEd op fuel = .ok (s, c) →
      binEd.data = c.data ∧ binEd.offset ≤ c.offset := by
  induction fuel with
  | zero =>
    intro binEd op s c h
    simp only [parseNibblesGo, Except.ok.injEq, Prod.mk.injEq] at h
    obtain ⟨-, rfl⟩ := h
    exact ⟨rfl, Nat.le_refl _⟩
  | succ fuel ih =>
    intro binEd op s c h
    rw [parseNibblesGo] at h
    cases hg : binEd.getUint8 with
    | error e => rw [hg] at h; exact Except.noConfusion h
    | ok p =>
      obtain ⟨aByte, binEd1⟩ := p
      rw [hg] at h
      have hst : binEd1 = ⟨binEd.data, binEd.offset + 1⟩ := getUint8_state hg
      subst hst
      simp only [] at h
      split at h
      · simp only [Except.ok.injEq, Prod.mk.injEq] at h
        obtain ⟨-, rfl⟩ := h
        exact ⟨rfl, Nat.le_succ _⟩
      · split at h
        · simp only [Except.ok.injEq, Prod.mk.injEq] at h
          obtain ⟨-, rfl⟩ := h
          exact ⟨rfl, Nat.le_succ _⟩
        · obtain ⟨h1, h2⟩ := ih _ _ h
          refine ⟨h1, ?_⟩
          have h2' : binEd.offset + 1 ≤ c.offset := h2
          omega

/-- A successful scan step reads at least one byte and never changes the
underlying data, so the fuelled loops below never exhaust their fuel. -/
theorem scanByte_mono {binEd : BinaryFontEditor} {step : ScanStep}
    (h : scanByte binEd = .ok step) :
    binEd.data = step.cursor.data ∧ binEd.offset < step.cursor.offset := by
  cases hg : binEd.getUint8 with
  | error e => rw [scanByte_err0 hg] at h; exact Except.noConfusion h
  | ok p =>
    obtain ⟨b0, c1⟩ := p
    have hb0 : b0 < 256 := getUint8_lt hg
    have hc1 : c1 = ⟨binEd.data, binEd.offset + 1⟩ := getUint8_state hg
    by_cases hres : isReserved b0 = true
    · rw [scanByte_reserved hg hres] at h; exact Except.noConfusion h
    have hresf : isReserved b0 = false := by simpa using hres
    have hresP : ((22 ≤ b0 → 27 < b0) ∧ b0 ≠ 31) ∧ b0 ≠ 255 := by
      simpa [isReserved] using hresf
    by_cases h32 : 32 ≤ b0 ∧ b0 ≤ 246
    · rw [scanByte_small hg h32.1 h32.2] at h
      cases h
      subst hc1
      exact ⟨rfl, Nat.lt_succ_self _⟩
    by_cases h247 : 247 ≤ b0 ∧ b0 ≤ 250
    · cases hg1 : c1.getUint8 with
      | error e =>
        have herr : scanByte binEd = .error e := by
          unfold scanByte
          rw [hg]
          simp [hresf, h32, h247.1, h247.2, hg1]
        rw [herr] at h; exact Except.noConfusion h
      | ok q =>
        obtain ⟨b1, c2⟩ := q
        have hc2 := getUint8_state hg1
        rw [scanByte_pos2 hg h247.1 h247.2 hg1] at h
        cases h
        subst hc2; subst hc1
        refine ⟨rfl, ?_⟩
        show binEd.offset < binEd.offset + 1 + 1
        omega
    by_cases h251 : 251 ≤ b0 ∧ b0 ≤ 254
    · cases hg1 : c1.getUint8 with
      | error e =>
        have herr : scanByte binEd = .error e := by
          unfold scanByte
          rw [hg]
          simp [hresf, h32, h247, h251.1, h251.2, hg1]
        rw [herr] at h; exact Except.noConfusion h
      | ok q =>
        obtain ⟨b1, c2⟩ := q
        have hc2 := getUint8_state hg1
        rw [scanByte_neg2 hg h251.1 h251.2 hg1] at h
        cases h
        subst hc2; subst hc1
        refine ⟨rfl, ?_⟩
        show binEd.offset < binEd.offset + 1 + 1
        omega
    by_cases h28 : b0 = 28
    · subst h28
      cases hg1 : c1.getUint8 with
      | error e =>
        have herr : scanByte binEd = .error e := by
          unfold scanByte
          rw [hg]
          simp [isReserved, hg1]
        rw [herr] at h; exact Except.noConfusion h
      | ok q =>
        obtain ⟨b1, c2⟩ := q
        have hc2 := getUint8_state hg1
        cases hg2 : c2.getUint8 with
        | error e =>
          have herr : scanByte binEd = .error e := by
            unfold scanByte
            rw [hg]
            simp [isReserved, hg1, hg2]
          rw [herr] at h; exact Except.noConfusion h
        | ok r =>
          obtain ⟨b2, c3⟩ := r
          have hc3 := getUint8_state hg2
          rw [scanByte_int3 hg hg1 hg2] at h
          cases h
          subst hc3; subst hc2; subst hc1
          refine ⟨rfl, ?_⟩
          show binEd.offset < binEd.offset + 1 + 1 + 1
          omega
    by_cases h29 : b0 = 29
    · subst h29
      cases hg1 : c1.getUint8 with
      | error e =>
        have herr : scanByte binEd = .error e := by
          unfold scanByte
          rw [hg]
          simp [isReserved, hg1]
        rw [herr] at h; exact Except.noConfusion h
      | ok q1 =>
        obtain ⟨b1, c2⟩ := q1
        have hc2 := getUint8_state hg1
        cases hg2 : c2.getUint8 with
        | error e =>
          have herr : scanByte binEd = .error e := by
            unfold scanByte
            rw [hg]
            simp [isReserved, hg1, hg2]
          rw [herr] at h; exact Except.noConfusion h
        | ok q2 =>
          obtain ⟨b2, c3⟩ := q2
          have hc3 := getUint8_state hg2
          cases hg3 : c3.getUint8 with
          | error e =>
            have herr : scanByte binEd = .error e := by
              unfold scanByte
              rw [hg]
              simp [isReserved, hg1, hg2, hg3]
            rw [herr] at h; exact Except.noConfusion h
          | ok q3 =>
            obtain ⟨b3, c4⟩ := q3
            have hc4 := getUint8_state hg3
            cases hg4 : c4.getUint8 with
            | error e =>
              have herr : scanByte binEd = .error e := by
                unfold scanByte
                rw [hg]
                simp [isReserved, hg1, hg2, hg3, hg4]
              rw [herr] at h; exact Except.noConfusion h
            | ok q4 =>
              obtain ⟨b4, c5⟩ := q4
              have hc5 := getUint8_state hg4
              rw [scanByte_int5 hg hg1 hg2 hg3 hg4] at h
              cases h
              subst hc5; subst hc4; subst hc3; subst hc2; subst hc1
              refine ⟨rfl, ?_⟩
              show binEd.offset < binEd.offset + 1 + 1 + 1 + 1 + 1
              omega
    by_cases h30 : b0 = 30
    · subst h30
      cases hnib : parseNibbles_ c1 with
      | error e =>
        have herr : scanByte binEd = .error e := by
          unfold scanByte
          rw [hg]
          simp [isReserved, hnib]
        rw [herr] at h; exact Except.noConfusion h
      | ok q =>
        obtain ⟨s, c2⟩ := q
        obtain ⟨hd, ho⟩ := parseNibblesGo_mono 49 _ _ hnib
        rw [scanByte_real hg hnib] at h
        cases h
        subst hc1
        refine ⟨hd, ?_⟩
        have ho' : binEd.offset + 1 ≤ c2.offset := ho
        show binEd.offset < c2.offset
        omega
    by_cases h12 : b0 = 12
    · subst h12
      cases hg1 : c1.getUint8 with
      | error e =>
        have herr : scanByte binEd = .error e := by
          unfold scanByte
          rw [hg]
          simp [isReserved, hg1]
        rw [herr] at h; exact Except.noConfusion h
      | ok q =>
        obtain ⟨op, c2⟩ := q
        have hc2 := getUint8_state hg1
        rw [scanByte_esc hg hg1] at h
        cases h
        subst hc2; subst hc1
        refine ⟨rfl, ?_⟩
        show binEd.offset < binEd.offset + 1 + 1
        omega
    · rw [scanByte_op hg (by omega) h12] at h
      cases h
      subst hc1
      exact ⟨rfl, Nat.lt_succ_self _⟩

end tachyfont
namespace tachyfont

theorem readOOGo_operand_step {binEd c1 : BinaryFontEditor} {v : Operand}
    (hs : scanByte binEd = .ok (.operand v c1)) (operands : List Operand) (fuel : Nat) :
    readOperandsOperatorGo binEd operands (fuel + 1) =
      readOperandsOperatorGo c1 (operands ++ [v]) fuel := by
  rw [readOperandsOperatorGo, hs]

theorem readOOGo_operator_step {binEd c1 : BinaryFontEditor} {op : String}
    (hs : scanByte binEd = .ok (.operator op c1)) (operands : List Operand) (fuel : Nat) :
    readOperandsOperatorGo binEd operands (fuel + 1) = .ok (⟨op, operands⟩, c1) := by
  rw [readOperandsOperatorGo, hs]

theorem readOOGo_err {binEd : BinaryFontEditor} {e : DictError}
    (hs : scanByte binEd = .error e) (operands : List Operand) (fuel : Nat) :
    readOperandsOperatorGo binEd operands (fuel + 1) = .error e := by
  rw [readOperandsOperatorGo, hs]

theorem readOperandsOperatorGo_mono (fuel : Nat) :
    ∀ (binEd : BinaryFontEditor) (operands : List Operand) {kv : KeyValuePair}
      {c : BinaryFontEditor},
    readOperandsOperatorGo binEd operands fuel = .ok (kv, c) →
      binEd.data = c.data ∧ binEd.offset ≤ c.offset := by
  induction fuel with
  | zero =>
    intro binEd operands kv c h
    simp only [readOperandsOperatorGo, Except.ok.injEq, Prod.mk.injEq] at h
    obtain ⟨-, rfl⟩ := h
    exact ⟨rfl, Nat.le_refl _⟩
  | succ fuel ih =>
    intro binEd operands kv c h
    cases hs : scanByte binEd with
    | error e => rw [readOOGo_err hs] at h; exact Except.noConfusion h
    | ok step =>
      obtain ⟨hd, ho⟩ := scanByte_mono hs
      cases step with
      | operand v c1 =>
        rw [readOOGo_operand_step hs] at h
        obtain ⟨hd1, ho1⟩ := ih _ _ h
        have hd' : binEd.data = c1.data := hd
        have ho' : binEd.offset < c1.offset := ho
        exact ⟨hd'.trans hd1, by omega⟩
      | operator op c1 =>
        rw [readOOGo_operator_step hs] at h
        simp only [Except.ok.injEq, Prod.mk.injEq] at h
        obtain ⟨-, rfl⟩ := h
        have hd' : binEd.data = c1.data := hd
        have ho' : binEd.offset < c1.offset := ho
        exact ⟨hd', Nat.le_of_lt ho'⟩

/-- A successful `readOperandsOperator_` call consumes at least one byte:
this justifies the fuel `byteLength + 1` used for the `init_` loop. -/
theorem readOperandsOperator_mono {binEd c : BinaryFontEditor} {kv : KeyValuePair}
    (h : readOperandsOperator_ binEd = .ok (kv, c)) :
    binEd.data = c.data ∧ binEd.offset < c.offset := by
  unfold readOperandsOperator_ at h
  have h49 : (49 : Nat) = 48 + 1 := rfl
  rw [h49] at h
  cases hs : scanByte binEd with
  | error e => rw [readOOGo_err hs] at h; exact Except.noConfusion h
  | ok step =>
    obtain ⟨hd, ho⟩ := scanByte_mono hs
    cases step with
    | operand v c1 =>
      rw [readOOGo_operand_step hs] at h
      obtain ⟨hd1, ho1⟩ := readOperandsOperatorGo_mono 48 _ _ h
      have hd' : binEd.data = c1.data := hd
      have ho' : binEd.offset < c1.offset := ho
      exact ⟨hd'.trans hd1, by omega⟩
    | operator op c1 =>
      rw [readOOGo_operator_step hs] at h
      simp only [Except.ok.injEq, Prod.mk.injEq] at h
      obtain ⟨-, rfl⟩ := h
      exact ⟨hd, ho⟩

end tachyfont

namespace tachyfont

theorem objGet_objSet_self {α : Type} (o : List (String × α)) (k : String) (v : α) :
    objGet (objSet o k v) k = some v := by
  induction o with
  | nil => simp [objSet, objGet]
  | cons p rest ih =>
    by_cases hp : p.1 = k
    · simp [objSet, objGet, hp]
    · simp only [objSet, objGet, beq_iff_eq, hp, if_false]
      exact ih

theorem objGet_objSet_ne {α : Type} (o : List (String × α)) {k k' : String} (v : α)
    (h : k' ≠ k) : objGet (objSet o k v) k' = objGet o k' := by
  induction o with
  | nil => simp [objSet, objGet, Ne.symm h]
  | cons p rest ih =>
    by_cases hp : p.1 = k
    · have hp' : p.1 = k' ↔ False := by constructor <;> intro hc <;> simp_all
      simp [objSet, objGet, hp, hp', Ne.symm h]
    · simp only [objSet, objGet, beq_iff_eq, hp, if_false]
      by_cases hq : p.1 = k' <;> simp [hq, ih]

end tachyfont
namespace tachyfont

theorem readOOGo_length (fuel : Nat) :
    ∀ (binEd : BinaryFontEditor) (operands : List Operand) {kv : KeyValuePair}
      {c : BinaryFontEditor},
    readOperandsOperatorGo binEd operands fuel = .ok (kv, c) →
      kv.value.length ≤ operands.length + fuel ∧
        (kv.value.length = operands.length + fuel → kv.key = "") := by
  induction fuel with
  | zero =>
    intro binEd operands kv c h
    simp only [readOperandsOperatorGo, Except.ok.injEq, Prod.mk.injEq] at h
    obtain ⟨rfl, -⟩ := h
    exact ⟨Nat.le_refl _, fun _ => rfl⟩
  | succ fuel ih =>
    intro binEd operands kv c h
    cases hs : scanByte binEd with
    | error e => rw [readOOGo_err hs] at h; exact Except.noConfusion h
    | ok step =>
      cases step with
      | operand v c1 =>
        rw [readOOGo_operand_step hs] at h
        obtain ⟨h1, h2⟩ := ih _ _ h
        simp only [List.length_append, List.length_cons, List.length_nil] at h1 h2
        constructor
        · omega
        · intro he
          apply h2
          omega
      | operator op c1 =>
        rw [readOOGo_operator_step hs] at h
        simp only [Except.ok.injEq, Prod.mk.injEq] at h
        obtain ⟨rfl, -⟩ := h
        exact ⟨Nat.le_add_right _ _, fun he => absurd he (by simp)⟩

theorem initGo_log (fuel : Nat) :
    ∀ (m : Option (List (String × String))) (binEd : BinaryFontEditor)
      (keys : List String) (dict : List (String × List Operand)) (log log' : List String),
    Except.map (fun r => (r.1, r.2.1)) (initGo m binEd keys dict log fuel) =
      Except.map (fun r => (r.1, r.2.1)) (initGo none binEd keys dict log' fuel) := by
  induction fuel with
  | zero => intro m binEd keys dict log log'; rfl
  | succ fuel ih =>
    intro m binEd keys dict log log'
    by_cases hoff : binEd.offset < binEd.data.length
    · rw [initGo, initGo, if_pos hoff, if_pos hoff]
      cases hr : readOperandsOperator_ binEd with
      | error e => rfl
      | ok p =>
        obtain ⟨kv, binEd1⟩ := p
        simp only []
        exact ih m _ _ _ _ _
    · rw [initGo, initGo, if_neg hoff, if_neg hoff]
      rfl

end tachyfont
namespace tachyfont

/-- C1: whenever the next leading byte is in {22..27, 31, 255}, the scanner
fails with the reserved-operand-byte error; the decode loop propagates this
error, and a decode whose region starts with such a byte fails outright,
producing no Dict. -/
theorem claim_C1_reserved_aborts :
    (∀ (binEd c : BinaryFontEditor) (b0 : Nat),
      binEd.getUint8 = .ok (b0, c) → isReserved b0 = true →
        readOperandsOperator_ binEd = .error (.reservedOperandByte b0)) ∧
    (∀ (m : Option (List (String × String))) (binEd : BinaryFontEditor)
       (keys : List String) (dict : List (String × List Operand)) (log : List String)
       (fuel : Nat) (e : DictError),
      binEd.offset < binEd.data.length → readOperandsOperator_ binEd = .error e →
        initGo m binEd keys dict log (fuel + 1) = .error e) ∧
    (∀ (name : String) (buffer : List Nat) (offset length : Nat)
       (m : Option (List (String × String))) (b0 : Nat),
      0 < length → offset + length ≤ buffer.length →
      buffer[offset]? = some b0 → isReserved (b0 % 256) = true →
        loadDict name buffer offset length m =
          .error (.reservedOperandByte (b0 % 256))) := by
  have h49 : (49 : Nat) = 48 + 1 := rfl
  refine ⟨?_, ?_, ?_⟩
  · intro binEd c b0 hg hres
    unfold readOperandsOperator_
    rw [h49, readOOGo_err (scanByte_reserved hg hres)]
  · intro m binEd keys dict log fuel e hoff hr
    rw [initGo, if_pos hoff, hr]
  · intro name buffer offset length m b0 hlen hle hb hres
    unfold loadDict
    rw [if_pos hle]
    have hdv0 : ((buffer.drop offset).take length)[0]? = some b0 := by
      rw [List.getElem?_take_of_lt hlen, List.getElem?_drop]
      simpa using hb
    have hlendv : 0 < ((buffer.drop offset).take length).length := by
      simp only [List.length_take, List.length_drop]
      omega
    have hg : (⟨(buffer.drop offset).take length, 0⟩ : BinaryFontEditor).getUint8 =
        .ok (b0 % 256, ⟨(buffer.drop offset).take length, 1⟩) := by
      rw [getUint8_eq_ok_iff]
      exact ⟨by simpa using congrArg (Option.map (· % 256)) hdv0, rfl⟩
    have hscan : readOperandsOperator_ ⟨(buffer.drop offset).take length, 0⟩ =
        .error (.reservedOperandByte (b0 % 256)) := by
      unfold readOperandsOperator_
      rw [h49, readOOGo_err (scanByte_reserved hg hres)]
    rw [initGo, if_pos (show (0 : Nat) < ((buffer.drop offset).take length).length
      from hlendv), hscan]

/-- C2: for a leading byte in [32,246] the scanner consumes exactly that one
byte and decodes the operand `b0 - 139`; within the scan loop this operand is
appended and scanning continues at the next byte. -/
theorem claim_C2_one_byte_operand (binEd c : BinaryFontEditor) (b0 : Nat)
    (hg : binEd.getUint8 = .ok (b0, c)) (h1 : 32 ≤ b0) (h2 : b0 ≤ 246) :
    scanByte binEd = .ok (.operand (.int ((b0 : Int) - 139)) c) ∧
    c.offset = binEd.offset + 1 ∧
    ∀ (operands : List Operand) (fuel : Nat),
      readOperandsOperatorGo binEd operands (fuel + 1) =
        readOperandsOperatorGo c (operands ++ [.int ((b0 : Int) - 139)]) fuel := by
  have hs := scanByte_small hg h1 h2
  refine ⟨hs, ?_, fun operands fuel => readOOGo_operand_step hs operands fuel⟩
  rw [getUint8_state hg]

/-- C4: in the nibble decoder a high nibble of 0xf terminates immediately,
returning the accumulated string for any value of the low nibble (which is
never examined); the byte sequence [0x1a, 0x2f] decodes to the real literal
"1.2". -/
theorem claim_C4_nibble_terminator :
    (∀ (binEd c : BinaryFontEditor) (aByte : Nat) (operand : String) (fuel : Nat),
      binEd.getUint8 = .ok (aByte, c) → aByte >>> 4 = 0xf →
        parseNibblesGo binEd operand (fuel + 1) = .ok (operand, c)) ∧
    parseNibbles_ ⟨[0x1a, 0x2f], 0⟩ = .ok ("1.2", ⟨[0x1a, 0x2f], 2⟩) := by
  constructor
  · intro binEd c aByte operand fuel hg hf
    rw [parseNibblesGo, hg]
    simp [hf]
  · decide

/-- C6: for leading byte 28 the operand is the unsigned 16-bit big-endian
combination of the next two bytes, always in [0, 65535], with no sign
adjustment. -/
theorem claim_C6_unsigned_16bit (binEd c1 c2 c3 : BinaryFontEditor) (b1 b2 : Nat)
    (hg : binEd.getUint8 = .ok (28, c1)) (hg1 : c1.getUint8 = .ok (b1, c2))
    (hg2 : c2.getUint8 = .ok (b2, c3)) :
    scanByte binEd = .ok (.operand (.int ((2 ^ 8 * b1 + b2 : Nat) : Int)) c3) ∧
    (0 : Int) ≤ ((2 ^ 8 * b1 + b2 : Nat) : Int) ∧
    ((2 ^ 8 * b1 + b2 : Nat) : Int) ≤ 65535 := by
  have hb1 := getUint8_lt hg1
  have hb2 := getUint8_lt hg2
  refine ⟨?_, Int.natCast_nonneg _, ?_⟩
  · rw [scanByte_int3 hg hg1 hg2, jsOr_shl8 hb1 hb2]
  · exact_mod_cast (show 2 ^ 8 * b1 + b2 ≤ 65535 by omega)

/-- C9: for leading byte 29 the operand is the signed 32-bit big-endian
interpretation of the next four bytes: it always lies in [-2^31, 2^31), and
it is negative whenever the first of the four bytes is at least 128. -/
theorem claim_C9_signed_32bit (binEd c1 c2 c3 c4 c5 : BinaryFontEditor)
    (b1 b2 b3 b4 : Nat)
    (hg : binEd.getUint8 = .ok (29, c1)) (hg1 : c1.getUint8 = .ok (b1, c2))
    (hg2 : c2.getUint8 = .ok (b2, c3)) (hg3 : c3.getUint8 = .ok (b3, c4))
    (hg4 : c4.getUint8 = .ok (b4, c5)) :
    scanByte binEd = .ok (.operand (.int
      (if 2 ^ 24 * b1 + 2 ^ 16 * b2 + 2 ^ 8 * b3 + b4 < 2 ^ 31
       then ((2 ^ 24 * b1 + 2 ^ 16 * b2 + 2 ^ 8 * b3 + b4 : Nat) : Int)
       else ((2 ^ 24 * b1 + 2 ^ 16 * b2 + 2 ^ 8 * b3 + b4 : Nat) : Int) - 2 ^ 32)) c5) ∧
    (∀ v : Int, scanByte binEd = .ok (.operand (.int v) c5) →
      -(2 ^ 31) ≤ v ∧ v < 2 ^ 31 ∧ (128 ≤ b1 → v < 0)) := by
  have hb1 := getUint8_lt hg1
  have hb2 := getUint8_lt hg2
  have hb3 := getUint8_lt hg3
  have hb4 := getUint8_lt hg4
  have hmain : scanByte binEd = .ok (.operand (.int
      (if 2 ^ 24 * b1 + 2 ^ 16 * b2 + 2 ^ 8 * b3 + b4 < 2 ^ 31
       then ((2 ^ 24 * b1 + 2 ^ 16 * b2 + 2 ^ 8 * b3 + b4 : Nat) : Int)
       else ((2 ^ 24 * b1 + 2 ^ 16 * b2 + 2 ^ 8 * b3 + b4 : Nat) : Int) - 2 ^ 32)) c5) := by
    rw [scanByte_int5 hg hg1 hg2 hg3 hg4, jsOr_chain4 hb1 hb2 hb3 hb4]
    unfold jsAsInt32
    rw [Nat.mod_eq_of_lt (by omega)]
  refine ⟨hmain, ?_⟩
  intro v hv
  rw [hmain] at hv
  simp only [Except.ok.injEq, ScanStep.operand.injEq, Operand.int.injEq] at hv
  obtain ⟨hveq, -⟩ := hv
  subst hveq
  have hN : 2 ^ 24 * b1 + 2 ^ 16 * b2 + 2 ^ 8 * b3 + b4 < 2 ^ 32 := by omega
  refine ⟨?_, ?_, ?_⟩
  · split <;> omega
  · split <;> omega
  · intro h128
    rw [if_neg (show ¬(2 ^ 24 * b1 + 2 ^ 16 * b2 + 2 ^ 8 * b3 + b4 < 2 ^ 31) by omega)]
    omega

end tachyfont
namespace tachyfont

/-- C3 (amended): a single scan call collects at most 49 operands, and when
the cap of 49 is reached the returned operator token is the empty string
(the loop exits without interpreting a further byte as the operator). -/
theorem claim_C3_operand_cap (binEd c : BinaryFontEditor) (kv : KeyValuePair)
    (h : readOperandsOperator_ binEd = .ok (kv, c)) :
    kv.value.length ≤ 49 ∧ (kv.value.length = 49 → kv.key = "") := by
  have hlen := readOOGo_length 49 binEd [] h
  simpa using hlen

set_option maxRecDepth 10000 in
/-- C3 counterexample: on 49 one-byte operands followed by operator byte 5,
the scanner returns the empty operator token with the operator byte left
unconsumed (offset 49), not the token "5" with the byte consumed. -/
theorem claim_C3_counterexample :
    readOperandsOperator_ ⟨List.replicate 49 139 ++ [5], 0⟩ =
      .ok (⟨"", List.replicate 49 (Operand.int 0)⟩,
        ⟨List.replicate 49 139 ++ [5], 49⟩) ∧
    readOperandsOperator_ ⟨List.replicate 49 139 ++ [5], 0⟩ ≠
      .ok (⟨"5", List.replicate 49 (Operand.int 0)⟩,
        ⟨List.replicate 49 139 ++ [5], 50⟩) := by
  constructor
  · decide
  · decide

set_option maxRecDepth 10000 in
/-- C10: when the scan loop's operand cap is reached (fuel 0, i.e. 49
operands accumulated), the scanner returns the empty operator token without
consuming any further byte; any completed scan with 49 operands carries the
empty operator token; and the decode loop records the empty string as an
ordinary key rather than failing. -/
theorem claim_C10_cap_returns_empty_operator :
    (∀ (binEd : BinaryFontEditor) (operands : List Operand),
      readOperandsOperatorGo binEd operands 0 = .ok (⟨"", operands⟩, binEd)) ∧
    (∀ (binEd c : BinaryFontEditor) (kv : KeyValuePair),
      readOperandsOperator_ binEd = .ok (kv, c) → kv.value.length = 49 →
        kv.key = "") ∧
    loadDict "x" (List.replicate 49 139) 0 49 none =
      .ok (⟨"x", [""], [("", List.replicate 49 (Operand.int 0))]⟩,
        ["  " ++ operandsToString (List.replicate 49 (Operand.int 0)) ++ " "]) := by
  refine ⟨fun binEd operands => rfl, ?_, by decide⟩
  intro binEd c kv h h49
  exact (readOOGo_length 49 binEd [] h).2 (by simpa using h49)

/-- C7 (code bug): on the Dict decoded from the bytes [139, 5] the token
"toString" is absent from the decoded mapping, yet get("toString") does not
fail: `"toString" in dict_` is true through the prototype chain and the
inherited `Object.prototype.toString` is returned (contradicting both the
claim and the method's own declared return type).  A genuinely unknown token
such as "7" still fails with the invalid-key error. -/
theorem claim_C7_prototype_leak :
    loadDict "t" [139, 5] 0 2 none =
      .ok (⟨"t", ["5"], [("5", [Operand.int 0])]⟩, ["  0 5"]) ∧
    objGet ((⟨"t", ["5"], [("5", [Operand.int 0])]⟩ : CffDict).dict) "toString" = none ∧
    (⟨"t", ["5"], [("5", [Operand.int 0])]⟩ : CffDict).get "toString" =
      .ok (.inherited "toString") ∧
    (⟨"t", ["5"], [("5", [Operand.int 0])]⟩ : CffDict).get "7" =
      .error (.invalidKeyLookup "t" "7") := by
  refine ⟨by decide, by decide, by decide, by decide⟩

/-- C8: the optional operator-name map never changes the decoded Dict (its
name, keys and operator→operand mapping) nor the success-or-failure outcome
of a decode; it only affects the debug log text. -/
theorem claim_C8_operator_map_log_only (name : String) (buffer : List Nat)
    (offset length : Nat) (m : Option (List (String × String))) :
    Except.map Prod.fst (loadDict name buffer offset length m) =
      Except.map Prod.fst (loadDict name buffer offset length none) := by
  unfold loadDict
  by_cases hle : offset + length ≤ buffer.length
  · rw [if_pos hle, if_pos hle]
    have key := initGo_log (((buffer.drop offset).take length).length + 1) m
      ⟨(buffer.drop offset).take length, 0⟩ [] [] [] []
    cases h1 : initGo m ⟨(buffer.drop offset).take length, 0⟩ [] [] []
        (((buffer.drop offset).take length).length + 1) with
    | error e =>
      rw [h1] at key
      cases h2 : initGo none ⟨(buffer.drop offset).take length, 0⟩ [] [] []
          (((buffer.drop offset).take length).length + 1) with
      | error e2 =>
        rw [h2] at key
        simp only [Except.map] at key
        cases key
        rfl
      | ok q =>
        rw [h2] at key
        exact Except.noConfusion key
    | ok q =>
      rw [h1] at key
      cases h2 : initGo none ⟨(buffer.drop offset).take length, 0⟩ [] [] []
          (((buffer.drop offset).take length).length + 1) with
      | error e2 =>
        rw [h2] at key
        exact Except.noConfusion key
      | ok q2 =>
        rw [h2] at key
        obtain ⟨q1a, q1b, q1c⟩ := q
        obtain ⟨q2a, q2b, q2c⟩ := q2
        simp only [Except.map, Except.ok.injEq, Prod.mk.injEq] at key
        obtain ⟨hA, hB⟩ := key
        subst hA
        subst hB
        rfl
  · rw [if_neg hle, if_neg hle]

end tachyfont
namespace tachyfont

theorem initGo_trace (fuel : Nat) :
    ∀ (m : Option (List (String × String))) (binEd : BinaryFontEditor)
      (keys : List String) (dict : List (String × List Operand)) (log : List String)
      {out : List String × List (String × List Operand) × List String},
    initGo m binEd keys dict log fuel = .ok out →
    ∃ t, decodeTraceGo binEd fuel = .ok t ∧
      out.1 = keys ++ t.map Prod.fst ∧
      ∀ k, objGet out.2.1 k =
        (match t.reverse.find? (fun p => p.1 == k) with
         | some p => some p.2
         | none => objGet dict k) := by
  induction fuel with
  | zero =>
    intro m binEd keys dict log out h
    simp only [initGo, Except.ok.injEq] at h
    subst h
    exact ⟨[], rfl, by simp, fun k => by simp⟩
  | succ fuel ih =>
    intro m binEd keys dict log out h
    by_cases hoff : binEd.offset < binEd.data.length
    · rw [initGo, if_pos hoff] at h
      cases hr : readOperandsOperator_ binEd with
      | error e => rw [hr] at h; exact Except.noConfusion h
      | ok p =>
        obtain ⟨kv, binEd1⟩ := p
        rw [hr] at h
        simp only [] at h
        obtain ⟨t1, ht1, hkeys, hdict⟩ := ih m _ _ _ _ h
        refine ⟨(kv.key, kv.value) :: t1, ?_, ?_, ?_⟩
        · simp only [decodeTraceGo, if_pos hoff, hr, ht1]
        · simpa [List.append_assoc] using hkeys
        · intro k
          rw [hdict k]
          rw [List.reverse_cons, List.find?_append]
          cases hfind : t1.reverse.find? (fun p => p.1 == k) with
          | some p => simp [hfind, Option.or]
          | none =>
            by_cases hk : kv.key = k
            · simp [hfind, hk, objGet_objSet_self, Option.or]
            · simp [hfind, hk, objGet_objSet_ne dict kv.value (Ne.symm hk), Option.or]
    · rw [initGo, if_neg hoff] at h
      simp only [Except.ok.injEq] at h
      subst h
      refine ⟨[], ?_, by simp, fun k => by simp⟩
      rw [decodeTraceGo, if_neg hoff]

/-- C5: on a successful decode the key list records the operator of every
scan in order (duplicates included), get on any produced token returns the
operand list of its last occurrence (the first hit in the reversed
occurrence trace), and every token present in the mapping occurs in the key
list. -/
theorem claim_C5_last_occurrence (name : String) (buffer : List Nat)
    (offset length : Nat) (m : Option (List (String × String)))
    (d : CffDict) (log : List String)
    (h : loadDict name buffer offset length m = .ok (d, log)) :
    ∃ t, loadTrace buffer offset length = .ok t ∧
      d.getKeys = t.map Prod.fst ∧
      (∀ k p, t.reverse.find? (fun q => q.1 == k) = some p →
        d.get k = .ok (.operands p.2)) ∧
      (∀ k, (objGet d.dict k).isSome → k ∈ d.getKeys) := by
  unfold loadDict at h
  by_cases hle : offset + length ≤ buffer.length
  · rw [if_pos hle] at h
    cases hi : initGo m ⟨(buffer.drop offset).take length, 0⟩ [] [] []
        (((buffer.drop offset).take length).length + 1) with
    | error e => rw [hi] at h; exact Except.noConfusion h
    | ok out =>
      rw [hi] at h
      obtain ⟨keys, dict, lg⟩ := out
      simp only [Except.ok.injEq, Prod.mk.injEq] at h
      obtain ⟨hd, -⟩ := h
      subst hd
      obtain ⟨t, ht, hkeys, hdict⟩ := initGo_trace _ m _ _ _ _ hi
      simp only [List.nil_append] at hkeys
      subst hkeys
      refine ⟨t, ?_, rfl, ?_, ?_⟩
      · unfold loadTrace
        rw [if_pos hle, ht]
      · intro k p hfind
        have hk := hdict k
        rw [hfind] at hk
        simp only [] at hk
        simp [CffDict.get, hk]
      · intro k hk2
        have hk := hdict k
        cases hfind : t.reverse.find? (fun p => p.1 == k) with
        | none =>
          rw [hfind] at hk
          simp only [objGet] at hk
          rw [show (⟨name, t.map Prod.fst, dict⟩ : CffDict).dict = dict from rfl, hk] at hk2
          simp at hk2
        | some p =>
          have hpk : p.1 = k := by simpa using List.find?_some hfind
          have hmem : p ∈ t := by
            have := List.mem_of_find?_eq_some hfind
            simpa using this
          show k ∈ t.map Prod.fst
          rw [← hpk]
          exact List.mem_map_of_mem _ hmem
  · rw [if_neg hle] at h
    exact Except.noConfusion h

end tachyfont
namespace tachyfont

/-- C1 witness: a region consisting of the single reserved byte 0x16 = 22. -/
theorem claim_C1_witness :
    (0 : Nat) < 1 ∧ (0 : Nat) + 1 ≤ [22].length ∧ ([22] : List Nat)[0]? = some 22 ∧
    isReserved (22 % 256) = true ∧
    loadDict "x" [22] 0 1 none = .error (.reservedOperandByte (22 % 256)) :=
  ⟨by decide, by decide, by decide, by decide,
    claim_C1_reserved_aborts.2.2 "x" [22] 0 1 none 22 (by decide) (by decide)
      (by decide) (by decide)⟩

/-- C2 witness: byte 0x8B = 139 decodes to operand 0 and byte 0x20 = 32 to
operand -107, each consuming exactly one byte. -/
theorem claim_C2_witness :
    scanByte ⟨[139], 0⟩ = .ok (.operand (.int 0) ⟨[139], 1⟩) ∧
    scanByte ⟨[32], 0⟩ = .ok (.operand (.int (-107)) ⟨[32], 1⟩) := by
  constructor
  · have h := (claim_C2_one_byte_operand ⟨[139], 0⟩ ⟨[139], 1⟩ 139 (by decide)
      (by decide) (by decide)).1
    simpa using h
  · have h := (claim_C2_one_byte_operand ⟨[32], 0⟩ ⟨[32], 1⟩ 32 (by decide)
      (by decide) (by decide)).1
    simpa using h

/-- C3 witness (amended claim): a scan producing one operand satisfies the
cap and the vacuous 49-operand condition. -/
theorem claim_C3_witness :
    (([Operand.int 0] : List Operand).length ≤ 49 ∧
      (([Operand.int 0] : List Operand).length = 49 → "5" = "")) :=
  claim_C3_operand_cap ⟨[139, 5], 0⟩ ⟨[139, 5], 2⟩ ⟨"5", [Operand.int 0]⟩ (by decide)

/-- C4 witness: a terminator byte 0xfa (high nibble 0xf, low nibble 0xa)
ends the nibble decode immediately, ignoring its low nibble. -/
theorem claim_C4_witness :
    parseNibblesGo ⟨[0xfa], 0⟩ "7" (48 + 1) = .ok ("7", ⟨[0xfa], 1⟩) :=
  claim_C4_nibble_terminator.1 ⟨[0xfa], 0⟩ ⟨[0xfa], 1⟩ 0xfa "7" 48 (by decide) (by decide)

/-- C5 witness: the region [139, 5, 140, 5] produces the operator "5" twice;
get returns the operand list of the second occurrence. -/
theorem claim_C5_witness :
    loadDict "t" [139, 5, 140, 5] 0 4 none =
      .ok (⟨"t", ["5", "5"], [("5", [Operand.int 1])]⟩, ["  0 5", "  1 5"]) ∧
    (∃ t, loadTrace [139, 5, 140, 5] 0 4 = .ok t ∧
      (⟨"t", ["5", "5"], [("5", [Operand.int 1])]⟩ : CffDict).getKeys = t.map Prod.fst ∧
      (∀ k p, t.reverse.find? (fun q => q.1 == k) = some p →
        (⟨"t", ["5", "5"], [("5", [Operand.int 1])]⟩ : CffDict).get k =
          .ok (.operands p.2)) ∧
      (∀ k, (objGet (⟨"t", ["5", "5"], [("5", [Operand.int 1])]⟩ : CffDict).dict k).isSome →
        k ∈ (⟨"t", ["5", "5"], [("5", [Operand.int 1])]⟩ : CffDict).getKeys)) :=
  ⟨by decide, claim_C5_last_occurrence "t" [139, 5, 140, 5] 0 4 none
    ⟨"t", ["5", "5"], [("5", [Operand.int 1])]⟩ ["  0 5", "  1 5"] (by decide)⟩

/-- C6 witness: bytes 28, 0x01, 0x02 decode to operand 258. -/
theorem claim_C6_witness :
    scanByte ⟨[28, 1, 2], 0⟩ = .ok (.operand (.int 258) ⟨[28, 1, 2], 3⟩) ∧
    (0 : Int) ≤ 258 ∧ (258 : Int) ≤ 65535 := by
  have h := claim_C6_unsigned_16bit ⟨[28, 1, 2], 0⟩ ⟨[28, 1, 2], 1⟩ ⟨[28, 1, 2], 2⟩
    ⟨[28, 1, 2], 3⟩ 1 2 (by decide) (by decide) (by decide)
  refine ⟨?_, by norm_num, by norm_num⟩
  have h1 := h.1
  norm_num at h1
  exact h1

/-- C8 witness: a concrete decode with and without a name map. -/
theorem claim_C8_witness :
    Except.map Prod.fst (loadDict "t" [139, 5] 0 2 (some [("5", "FontBBox")])) =
      Except.map Prod.fst (loadDict "t" [139, 5] 0 2 none) :=
  claim_C8_operator_map_log_only "t" [139, 5] 0 2 (some [("5", "FontBBox")])

/-- C9 witness: bytes 29, 0xff, 0xff, 0xff, 0xff decode to operand -1,
which is in range and negative as the first byte is at least 128. -/
theorem claim_C9_witness :
    scanByte ⟨[29, 255, 255, 255, 255], 0⟩ =
      .ok (.operand (.int (-1)) ⟨[29, 255, 255, 255, 255], 5⟩) ∧
    -(2 ^ 31 : Int) ≤ -1 ∧ (-1 : Int) < 2 ^ 31 ∧ ((128 : Nat) ≤ 255 → (-1 : Int) < 0) := by
  have h := claim_C9_signed_32bit ⟨[29, 255, 255, 255, 255], 0⟩
    ⟨[29, 255, 255, 255, 255], 1⟩ ⟨[29, 255, 255, 255, 255], 2⟩
    ⟨[29, 255, 255, 255, 255], 3⟩ ⟨[29, 255, 255, 255, 255], 4⟩
    ⟨[29, 255, 255, 255, 255], 5⟩ 255 255 255 255
    (by decide) (by decide) (by decide) (by decide) (by decide)
  obtain ⟨hA, hB, hC⟩ := h.2 (-1) (by decide)
  exact ⟨by decide, hA, hB, fun _ => hC (by decide)⟩

set_option maxRecDepth 10000 in
/-- C10 witness: 49 one-byte operands with no operator: the scan returns the
empty operator token at offset 49. -/
theorem claim_C10_witness :
    readOperandsOperator_ ⟨List.replicate 49 139, 0⟩ =
      .ok (⟨"", List.replicate 49 (Operand.int 0)⟩, ⟨List.replicate 49 139, 49⟩) ∧
    (⟨"", List.replicate 49 (Operand.int 0)⟩ : KeyValuePair).key = "" :=
  ⟨by decide, claim_C10_cap_returns_empty_operator.2.1 ⟨List.replicate 49 139, 0⟩
    ⟨List.replicate 49 139, 49⟩ ⟨"", List.replicate 49 (Operand.int 0)⟩
    (by decide) (by decide)⟩

end tachyfont
